import Mathlib

/-!
Verification development for the json-lib parser (`src/lib/parse.js`).

The parser is embedded shallowly: the hand-written tokenizer (`getToken` and
its helpers), the recursive-descent grammar functions (`parseObject`,
`parseArray`, `parseString`, `parseNumber`, `parseSymbol`, `parseEnd`), and the
circular-reference resolver (`isCircular`, `parseCircular`) are translated to
executable Lean functions.  JavaScript objects and arrays are aliased mutable
containers, so values are modelled with an explicit heap: a container value is
a reference (index) into a heap of object/array records, exactly reflecting
that the parse stack shares ownership with the partially-built tree.  The
module-level mutable state of the source (`jsonText`, `index`, `c`, `token`,
`tokenType`, `stack`, `path`) is modelled by `ModuleState`; the entry point
re-initializes every field, as lines 71-79 of the source do.

The source text is modelled as `List Char`; the scanner index `index` is a
`Nat`.  `charAt` past the end returns the empty string in JavaScript; this is
reflected by the scanner's end-of-input cases.  The mutually recursive grammar
functions use explicit fuel; a sufficiency theorem shows the fuel chosen by the
entry point is always enough, which is the termination statement for the
recursive descent.
-/

namespace JsonLib

/-- Abbreviation for the character lists used for text, tokens and keys. -/
abbrev Chars := List Char

/-- Token type enumeration, from the `TOKENTYPE` constant (lines 9-16). -/
inductive TokenType where
  | null
  | delimiter
  | number
  | string
  | symbol
  | unknown
deriving DecidableEq, Repr

/-- Error value: message and the optional character offset.  `createSyntaxError`
(lines 296-304) always attaches an offset; the `Error` thrown by
`parseCircular` (line 511) carries none, modelled by `none`. -/
structure Err where
  msg : String
  pos : Option Nat
deriving DecidableEq, Repr

/-- Scanner output: the (decoded) token text, its type, and the value of the
module variable `index` right after `getToken` returns. -/
structure Tok where
  token : Chars
  ty : TokenType
  i : Nat
deriving DecidableEq, Repr

/-- JavaScript values produced by the parser.  Containers are heap references
(`vref`), so that aliasing between the parse stack and the tree under
construction — and the cyclic structures built by circular-reference
resolution — are represented faithfully.  `vundef` is JavaScript `undefined`
(the result of an out-of-range array read such as `stack[pointerPath.length]`).
`vnum` records the validated number literal text: the source computes
`token/1` (line 439), a binary64 coercion of that same text; the coercion is
modelled separately by `jsToNumberInt` (floats themselves are outside the
embedding), so the node keeps the text the coercion is applied to. -/
inductive JsVal where
  | vref (addr : Nat)
  | vstr (s : Chars)
  | vnum (lit : Chars)
  | vbool (b : Bool)
  | vnull
  | vundef
deriving DecidableEq, Repr

/-- A heap record: a JavaScript object (ordered key/value fields, keys unique,
last write wins) or array. -/
inductive HObj where
  | hobj (fields : List (Chars × JsVal))
  | harr (items : List JsVal)
deriving DecidableEq, Repr

/-- The heap: allocation appends, addresses are list indices. -/
abbrev Heap := List HObj

/-- Character class of the whitespace skipped by `getToken` (line 115). -/
def isWS (ch : Char) : Bool :=
  ch = ' ' ∨ ch = '\t' ∨ ch = '\n' ∨ ch = '\r'

/-- Membership in the `DELIMITERS` map (lines 19-27) for a single character;
the empty-string delimiter is the scanner's end-of-input case. -/
def isDelimChar (ch : Char) : Bool :=
  ch = '{' ∨ ch = '}' ∨ ch = '[' ∨ ch = ']' ∨ ch = ':' ∨ ch = ','

/-- The `isDigit` predicate (lines 283-285). -/
def isDigit (ch : Char) : Bool :=
  '0' ≤ ch ∧ ch ≤ '9'

/-- The `isAlpha` predicate (lines 264-266): ASCII letters and underscore. -/
def isAlpha (ch : Char) : Bool :=
  ('a' ≤ ch ∧ ch ≤ 'z') ∨ ('A' ≤ ch ∧ ch ≤ 'Z') ∨ ch = '_'

/-- The `isHex` predicate (lines 273-275). -/
def isHex (ch : Char) : Bool :=
  ('0' ≤ ch ∧ ch ≤ '9') ∨ ('a' ≤ ch ∧ ch ≤ 'f') ∨ ('A' ≤ ch ∧ ch ≤ 'F')

/-- The `ESCAPE_CHARACTERS` map (lines 30-40); `\u` is handled separately. -/
def escapeChar (ch : Char) : Option Char :=
  if ch = '"' then some '"'
  else if ch = '\\' then some '\\'
  else if ch = '/' then some '/'
  else if ch = 'b' then some (Char.ofNat 8)
  else if ch = 'f' then some (Char.ofNat 12)
  else if ch = 'n' then some '\n'
  else if ch = 'r' then some '\r'
  else if ch = 't' then some '\t'
  else none

/-- Numeric value of a hexadecimal digit, as used by `parseInt(hex, 16)`. -/
def hexVal (ch : Char) : Nat :=
  if '0' ≤ ch ∧ ch ≤ '9' then ch.toNat - '0'.toNat
  else if 'a' ≤ ch ∧ ch ≤ 'f' then ch.toNat - 'a'.toNat + 10
  else if 'A' ≤ ch ∧ ch ≤ 'F' then ch.toNat - 'A'.toNat + 10
  else 0

/-- Whitespace skip of `getToken` (lines 115-117): consumes the leading
whitespace of the remaining text, incrementing the index in lockstep, and
returns the remaining text with the new index. -/
def skipWS : Chars → Nat → Chars × Nat
  | ch :: rest, i => if isWS ch then skipWS rest (i + 1) else (ch :: rest, i)
  | [], i => ([], i)

/-- The digit-consuming `while` loops of the number branch (lines 147-150,
160-163, 179-182): consumes leading digits, appending them to the token
accumulator.  Returns the token so far, the index after the digits, and the
remaining text. -/
def scanDigits : Chars → Nat → Chars → Chars × Nat × Chars
  | ch :: rest, i, acc =>
      if isDigit ch then scanDigits rest (i + 1) (acc ++ [ch]) else (acc, i, ch :: rest)
  | [], i, acc => (acc, i, [])

/-- Exponent part of the number branch (lines 166-183).  `l` is the remaining
text, `i` its index, `acc` the token so far. -/
def scanExp (l : Chars) (i : Nat) (acc : Chars) : Except Err Tok :=
  match l with
  | ch :: rest =>
    if ch = 'e' ∨ ch = 'E' then
      match rest with
      | ch2 :: rest2 =>
        if ch2 = '+' ∨ ch2 = '-' then
          match rest2 with
          | ch3 :: _ =>
            if isDigit ch3 then
              let d := scanDigits rest2 (i + 2) (acc ++ [ch, ch2])
              .ok ⟨d.1, .number, d.2.1⟩
            else .error ⟨"Invalid number, digit expected", some (i + 2)⟩
          | [] => .error ⟨"Invalid number, digit expected", some (i + 2)⟩
        else if isDigit ch2 then
          let d := scanDigits rest (i + 1) (acc ++ [ch])
          .ok ⟨d.1, .number, d.2.1⟩
        else .error ⟨"Invalid number, digit expected", some (i + 1)⟩
      | [] => .error ⟨"Invalid number, digit expected", some (i + 1)⟩
    else .ok ⟨acc, .number, i⟩
  | [] => .ok ⟨acc, .number, i⟩

/-- Fraction part of the number branch (lines 152-164), then the exponent. -/
def scanFracExp (l : Chars) (i : Nat) (acc : Chars) : Except Err Tok :=
  match l with
  | '.' :: rest =>
    match rest with
    | ch :: _ =>
      if isDigit ch then
        let d := scanDigits rest (i + 1) (acc ++ ['.'])
        scanExp d.2.2 d.2.1 d.1
      else .error ⟨"Invalid number, digit expected", some (i + 1)⟩
    | [] => .error ⟨"Invalid number, digit expected", some (i + 1)⟩
  | _ => scanExp l i acc

/-- Integer part of the number branch after the optional sign (lines 139-150):
the `'0'` case consumes the zero and then, exactly as the 1-9 case, falls
through to the shared digit loop — so a literal such as `01` is accepted. -/
def scanNumTail (l : Chars) (i : Nat) (acc : Chars) : Except Err Tok :=
  match l with
  | '0' :: rest =>
      let d := scanDigits rest (i + 1) (acc ++ ['0'])
      scanFracExp d.2.2 d.2.1 d.1
  | _ =>
      let d := scanDigits l i acc
      scanFracExp d.2.2 d.2.1 d.1

/-- Number branch of `getToken` (lines 128-186).  `l` starts at the first
character of the number (a digit or `'-'`). -/
def scanNumber (l : Chars) (i : Nat) : Except Err Tok :=
  match l with
  | '-' :: rest =>
    match rest with
    | ch :: _ =>
      if isDigit ch then scanNumTail rest (i + 1) ['-']
      else .error ⟨"Invalid number, digit expected", some (i + 1)⟩
    | [] => .error ⟨"Invalid number, digit expected", some (i + 1)⟩
  | _ => scanNumTail l i []

mutual
/-- String branch of `getToken` (lines 193-235), the character loop.  `l` is
the text after the opening quote, `i` its index, `acc` the decoded token so
far — the token holds the decoded text, not the raw escaped form.  A closing
quote ends the token (the `next()` at line 233 moves past it); end of input
before it is the unterminated-string error with the default position
`index - token.length`. -/
def scanString : Chars → Nat → Chars → Except Err Tok
  | [], i, acc => .error ⟨"End of string expected", some (i - acc.length)⟩
  | ch :: rest, i, acc =>
    if ch = '"' then .ok ⟨acc, .string, i + 1⟩
    else if ch = '\\' then scanEscape rest (i + 1) acc
    else scanString rest (i + 1) (acc ++ [ch])

/-- Escape handling (lines 195-221): `i` is the index of the character after
the backslash.  A mapped escape decodes via `ESCAPE_CHARACTERS`; `\u` starts
the four-hex-digit escape; anything else (including end of input, where
`charAt` is the empty string) is the invalid-escape error at that index. -/
def scanEscape : Chars → Nat → Chars → Except Err Tok
  | [], i, acc => .error ⟨"Invalid escape character \"\\\"", some i⟩
  | ec :: rest2, i, acc =>
    match escapeChar ec with
    | some u => scanString rest2 (i + 1) (acc ++ [u])
    | none =>
      if ec = 'u' then scanHex rest2 (i + 1) acc 0 0
      else .error ⟨"Invalid escape character \"\\" ++ String.mk [ec] ++ "\"", some i⟩

/-- The four-hex-digit loop of `\uXXXX` (lines 208-217): `k` digits consumed
so far with accumulated value `val`; a non-hex character (or end of input)
fails with the default position `index - token.length` (line 211 passes no
explicit offset).  After the fourth digit `String.fromCharCode(parseInt(hex,
16))` appends the decoded character; `Char.ofNat` models `fromCharCode` (no
claim concerns the surrogate range, where `Char.ofNat` falls back to NUL). -/
def scanHex : Chars → Nat → Chars → Nat → Nat → Except Err Tok
  | [], i, acc, _, _ => .error ⟨"Invalid unicode character", some (i - acc.length)⟩
  | c :: rest, i, acc, k, val =>
    if isHex c then
      if k = 3 then scanString rest (i + 1) (acc ++ [Char.ofNat (val * 16 + hexVal c)])
      else scanHex rest (i + 1) acc (k + 1) (val * 16 + hexVal c)
    else .error ⟨"Invalid unicode character", some (i - acc.length)⟩
end

/-- Symbol branch of `getToken` (lines 239-248): maximal run of
letters/underscore.  Never fails. -/
def scanSymbol : Chars → Nat → Chars → Tok
  | ch :: rest, i, acc =>
      if isAlpha ch then scanSymbol rest (i + 1) (acc ++ [ch]) else ⟨acc, .symbol, i⟩
  | [], i, acc => ⟨acc, .symbol, i⟩

/-- Unknown-character branch of `getToken` (lines 251-256): consumes the
remainder of the input and fails, with the default position
`index - token.length`, which is the start of the unknown part. -/
def scanUnknown : Chars → Nat → Chars → Err
  | ch :: rest, i, acc => scanUnknown rest (i + 1) (acc ++ [ch])
  | [], i, acc => ⟨"Syntax error in part \"" ++ String.mk acc ++ "\"", some (i - acc.length)⟩

/-- Dispatch of `getToken` after the whitespace skip (lines 120-256).  The
end-of-input case is the empty-string member of `DELIMITERS`: `charAt` past
the end yields `''`, the delimiter branch fires with an empty token, and
`next()` still increments the index (lines 120-124). -/
def tokenAt : Chars → Nat → Except Err Tok
  | [], i => .ok ⟨[], .delimiter, i + 1⟩
  | ch :: rest, i =>
    if isDelimChar ch then .ok ⟨[ch], .delimiter, i + 1⟩
    else if isDigit ch ∨ ch = '-' then scanNumber (ch :: rest) i
    else if ch = '"' then scanString rest (i + 1) []
    else if isAlpha ch then .ok (scanSymbol (ch :: rest) i [])
    else .error (scanUnknown (ch :: rest) i [])

/-- The tokenizer `getToken` (lines 110-257): skip whitespace, then scan one
token from position `i` of `text`. -/
def getToken (text : Chars) (i : Nat) : Except Err Tok :=
  let p := skipWS (text.drop i) i
  tokenAt p.1 p.2

/-- JavaScript property assignment `object[key] = value` on an ordered field
list: an existing key is updated in place (insertion position kept), a new key
is appended.  Duplicate keys in the input therefore collapse, last write
wins. -/
def objSet : List (Chars × JsVal) → Chars → JsVal → List (Chars × JsVal)
  | [], k, v => [(k, v)]
  | (k', v') :: rest, k, v =>
      if k' = k then (k, v) :: rest else (k', v') :: objSet rest k v

/-- Fields of the object stored at `addr` (empty for arrays or dangling
addresses; the parser only uses it on object addresses it allocated). -/
def getObjFields (heap : Heap) (addr : Nat) : List (Chars × JsVal) :=
  match heap.getD addr (.hobj []) with
  | .hobj fs => fs
  | .harr _ => []

/-- Items of the array stored at `addr`. -/
def getArrItems (heap : Heap) (addr : Nat) : List JsVal :=
  match heap.getD addr (.harr []) with
  | .harr xs => xs
  | .hobj _ => []

/-- Heap effect of `object[key] = value` (line 343) on the object at `addr`. -/
def heapObjSet (heap : Heap) (addr : Nat) (k : Chars) (v : JsVal) : Heap :=
  heap.set addr (.hobj (objSet (getObjFields heap addr) k v))

/-- Heap effect of `array.push(value)` (line 395) on the array at `addr`. -/
def heapArrPush (heap : Heap) (addr : Nat) (v : JsVal) : Heap :=
  heap.set addr (.harr (getArrItems heap addr ++ [v]))

/-- The `isCircular` shape test (lines 489-491): exactly one key, named
`$ref`, whose value is a string.  Since `objSet` keeps keys unique, the field
list length is the number of keys. -/
def isCircular (heap : Heap) (addr : Nat) : Bool :=
  match getObjFields heap addr with
  | [(k, .vstr _)] => k = "$ref".toList
  | _ => false

/-- The `$ref` field read `object.$ref` used by `parseCircular` (line 506). -/
def refString (heap : Heap) (addr : Nat) : Chars :=
  match (getObjFields heap addr).lookup ("$ref".toList) with
  | some (.vstr s) => s
  | _ => []

/-- Decoding of one pointer segment.  Modelled from the spec: the path-string
collaborator (`./pointer`, not under `src/`) returns "percent/escape-decoded
segments"; `~0`/`~1` are the JSON-pointer escapes for `~` and `/`, and `%XX`
is percent-decoding. -/
def decodeSeg : Chars → Chars
  | [] => []
  | '~' :: '0' :: r => '~' :: decodeSeg r
  | '~' :: '1' :: r => '/' :: decodeSeg r
  | '%' :: h1 :: h2 :: r =>
      if isHex h1 ∧ isHex h2 then Char.ofNat (hexVal h1 * 16 + hexVal h2) :: decodeSeg r
      else '%' :: decodeSeg (h1 :: h2 :: r)
  | ch :: r => ch :: decodeSeg r

/-- Split the pointer body on `/`, decoding each segment (`acc` accumulates
the current segment).  Modelled from the spec (see `parsePointer`). -/
def splitOnSlash : Chars → Chars → List Chars
  | [], acc => [decodeSeg acc]
  | '/' :: rest, acc => decodeSeg acc :: splitOnSlash rest []
  | ch :: rest, acc => splitOnSlash rest (acc ++ [ch])

/-- Modelled from the spec: the pointer-parsing collaborator (`parse` of
`./pointer`) is not under `src/`; per the spec it "accepts a reference-marker
string (a URI-fragment-style pointer, e.g. a root marker followed by
`/`-separated, percent/escape-decoded segments) and returns an ordered
sequence of segment strings".  The root marker `#` alone denotes the empty
path; otherwise the `/`-separated segments after `#/` are returned. -/
def parsePointer (s : Chars) : List Chars :=
  match s with
  | '#' :: rest =>
    (match rest with
    | [] => []
    | '/' :: body => splitOnSlash body []
    | body => splitOnSlash body [])
  | '/' :: body => splitOnSlash body []
  | [] => []
  | body => splitOnSlash body []

/-- The validation loop of `parseCircular` (lines 509-513): for each index `i`
of the pointer path, `pointerPath[i] !== path[i]` must fail.  Reading `path`
past its end yields `undefined`, which never equals a segment string, so an
over-long path mismatches; this is the `none` case here. -/
def prefixMatches : List Chars → List Chars → Bool
  | [], _ => true
  | _ :: _, [] => false
  | p :: ps, q :: qs => p = q ∧ prefixMatches ps qs

/-- The message of the `Error` thrown on a failed validation (line 511). -/
def circularMsg (s : Chars) : String :=
  "Invalid circular reference \"" ++ String.mk s ++ "\""

/-- The resolver `parseCircular` (lines 500-516).  `circ` is the value of the
configuration switch `config().circularRefs` (the configuration collaborator
is outside `src/`; the spec specifies it as a single boolean consulted here).
When disabled the marker object is returned unchanged; when enabled the
pointer path is validated against `path` and the result is
`stack[pointerPath.length]`, which is `undefined` when that index is out of
range. -/
def parseCircular (circ : Bool) (heap : Heap) (addr : Nat)
    (stack : List JsVal) (path : List Chars) : Except Err JsVal :=
  if ¬circ then .ok (.vref addr)
  else
    let s := refString heap addr
    let pointerPath := parsePointer s
    if prefixMatches pointerPath path then
      .ok (stack.getD pointerPath.length .vundef)
    else
      .error ⟨circularMsg s, none⟩

/-- Results of the grammar-parser functions: the produced value, the token
state after it, and the `stack`, `path` and heap after it.  `spin` is
exhaustion of the recursion fuel; the sufficiency theorem shows the entry
point's fuel never reaches it. -/
inductive PRes where
  | ok (v : JsVal) (t : Tok) (stack : List JsVal) (path : List Chars) (heap : Heap)
  | fail (e : Err)
  | spin
deriving DecidableEq, Repr

/-- Default position `index - token.length` of `createSyntaxError`
(lines 296-299) for the current token state. -/
def defaultPos (t : Tok) : Nat :=
  t.i - t.token.length

/-- `parseEnd` (lines 475-482): the fallback when no production matched. -/
def parseEnd (t : Tok) : PRes :=
  if t.token = [] then .fail ⟨"Unexpected end of json string", some (defaultPos t)⟩
  else .fail ⟨"Value expected", some (defaultPos t)⟩

/-- `parseSymbol` (lines 451-470): the symbols `true`, `false`, `null`. -/
def parseSymbol (text : Chars) (t : Tok) (stack : List JsVal) (path : List Chars)
    (heap : Heap) : PRes :=
  if t.ty = .symbol then
    if t.token = "true".toList then
      match getToken text t.i with
      | .error e => .fail e
      | .ok t1 => .ok (.vbool true) t1 stack path heap
    else if t.token = "false".toList then
      match getToken text t.i with
      | .error e => .fail e
      | .ok t1 => .ok (.vbool false) t1 stack path heap
    else if t.token = "null".toList then
      match getToken text t.i with
      | .error e => .fail e
      | .ok t1 => .ok .vnull t1 stack path heap
    else .fail ⟨"Unknown symbol \"" ++ String.mk t.token ++ "\"", some (defaultPos t)⟩
  else parseEnd t

/-- `parseNumber` (lines 437-445).  The source computes `let number = token/1`,
coercing the validated literal text to a binary64 float; the float itself is
outside the embedding, so the node records the literal the coercion is applied
to, and `jsToNumberInt` below models the coercion where a claim needs it. -/
def parseNumber (text : Chars) (t : Tok) (stack : List JsVal) (path : List Chars)
    (heap : Heap) : PRes :=
  if t.ty = .number then
    match getToken text t.i with
    | .error e => .fail e
    | .ok t1 => .ok (.vnum t.token) t1 stack path heap
  else parseSymbol text t stack path heap

/-- `parseString` (lines 423-431): consume a string token. -/
def parseString (text : Chars) (t : Tok) (stack : List JsVal) (path : List Chars)
    (heap : Heap) : PRes :=
  if t.ty = .string then
    match getToken text t.i with
    | .error e => .fail e
    | .ok t1 => .ok (.vstr t.token) t1 stack path heap
  else parseNumber text t stack path heap

/-- Close of an object (lines 352-366), entered after the member loop breaks:
expect `}`, advance, then either run the circular-reference resolution — which
returns without touching `stack`/`path` — or pop the entry by truncating both
to `stackIndex`. -/
def closeObject (circ : Bool) (text : Chars) (addr stackIndex : Nat) (t : Tok)
    (stack : List JsVal) (path : List Chars) (heap : Heap) : PRes :=
  if t.ty = .delimiter ∧ t.token = ['}'] then
    match getToken text t.i with
    | .error e => .fail e
    | .ok t1 =>
      if isCircular heap addr then
        match parseCircular circ heap addr stack path with
        | .error e => .fail e
        | .ok v => .ok v t1 stack path heap
      else
        .ok (.vref addr) t1 (stack.take stackIndex) (path.take stackIndex) heap
  else .fail ⟨"Comma or end of object \"\x7d\" expected", some (defaultPos t)⟩

/-- Close of an array (lines 404-413): expect `]`, advance, pop the entry. -/
def closeArray (text : Chars) (addr stackIndex : Nat) (t : Tok)
    (stack : List JsVal) (path : List Chars) (heap : Heap) : PRes :=
  if t.ty = .delimiter ∧ t.token = [']'] then
    match getToken text t.i with
    | .error e => .fail e
    | .ok t1 => .ok (.vref addr) t1 (stack.take stackIndex) (path.take stackIndex) heap
  else .fail ⟨"Comma or end of array \"]\" expected", some (defaultPos t)⟩

mutual

/-- `parseObject` (lines 310-370): on `{`, an empty object returns without a
stack entry; otherwise the object is pushed (`stack[stackIndex] = object`,
with `stackIndex = stack.length`) and the member loop runs.  Any other token
falls through to `parseArray`. -/
def parseObject (circ : Bool) (text : Chars) : Nat → Tok → List JsVal →
    List Chars → Heap → PRes
  | 0, _, _, _, _ => .spin
  | n + 1, t, stack, path, heap =>
    if t.ty = .delimiter ∧ t.token = ['{'] then
      match getToken text t.i with
      | .error e => .fail e
      | .ok t1 =>
        let addr := heap.length
        let heap1 := heap ++ [.hobj []]
        if t1.ty = .delimiter ∧ t1.token = ['}'] then
          match getToken text t1.i with
          | .error e => .fail e
          | .ok t2 => .ok (.vref addr) t2 stack path heap1
        else
          let stackIndex := stack.length
          parseObjectMembers circ text n addr stackIndex t1 (stack ++ [.vref addr]) path heap1
    else parseArray circ text n t stack path heap

/-- The member loop of `parseObject` (lines 327-350): key, colon, value — with
`path[stackIndex] = key` set just before the recursive value parse and
`object[key] = value` right after — then continue on `,` or close.  The
JavaScript assignment `path[stackIndex] = key` either overwrites an existing
entry or appends: in every reachable state `stackIndex ≤ path.length`, where
the list splice below coincides with it. -/
def parseObjectMembers (circ : Bool) (text : Chars) : Nat → Nat → Nat → Tok →
    List JsVal → List Chars → Heap → PRes
  | 0, _, _, _, _, _, _ => .spin
  | n + 1, addr, stackIndex, t, stack, path, heap =>
    if t.ty = .string then
      let key := t.token
      match getToken text t.i with
      | .error e => .fail e
      | .ok t1 =>
        if t1.ty = .delimiter ∧ t1.token = [':'] then
          match getToken text t1.i with
          | .error e => .fail e
          | .ok t2 =>
            let path1 := path.take stackIndex ++ [key] ++ path.drop (stackIndex + 1)
            match parseObject circ text n t2 stack path1 heap with
            | .spin => .spin
            | .fail e => .fail e
            | .ok v t3 stack2 path2 heap2 =>
              let heap3 := heapObjSet heap2 addr key v
              if t3.ty = .delimiter ∧ t3.token = [','] then
                match getToken text t3.i with
                | .error e => .fail e
                | .ok t4 => parseObjectMembers circ text n addr stackIndex t4 stack2 path2 heap3
              else closeObject circ text addr stackIndex t3 stack2 path2 heap3
        else .fail ⟨"Colon expected", some (defaultPos t1)⟩
    else .fail ⟨"Object key expected", some (defaultPos t)⟩

/-- `parseArray` (lines 376-417): symmetric to `parseObject`; any other token
falls through to `parseString`. -/
def parseArray (circ : Bool) (text : Chars) : Nat → Tok → List JsVal →
    List Chars → Heap → PRes
  | 0, _, _, _, _ => .spin
  | n + 1, t, stack, path, heap =>
    if t.ty = .delimiter ∧ t.token = ['['] then
      match getToken text t.i with
      | .error e => .fail e
      | .ok t1 =>
        let addr := heap.length
        let heap1 := heap ++ [.harr []]
        if t1.ty = .delimiter ∧ t1.token = [']'] then
          match getToken text t1.i with
          | .error e => .fail e
          | .ok t2 => .ok (.vref addr) t2 stack path heap1
        else
          let stackIndex := stack.length
          parseArrayItems circ text n addr stackIndex t1 (stack ++ [.vref addr]) path heap1
    else parseString text t stack path heap

/-- The item loop of `parseArray` (lines 392-402): `path[stackIndex]` is the
stringified current length (read before the push), the item is parsed and
pushed, then continue on `,` or close.  As in the member loop, the
`path[stackIndex]` assignment is a splice that coincides with the JavaScript
array write for the reachable states `stackIndex ≤ path.length`. -/
def parseArrayItems (circ : Bool) (text : Chars) : Nat → Nat → Nat → Tok →
    List JsVal → List Chars → Heap → PRes
  | 0, _, _, _, _, _, _ => .spin
  | n + 1, addr, stackIndex, t, stack, path, heap =>
    let idxChars := (Nat.repr (getArrItems heap addr).length).toList
    let path1 := path.take stackIndex ++ [idxChars] ++ path.drop (stackIndex + 1)
    match parseObject circ text n t stack path1 heap with
    | .spin => .spin
    | .fail e => .fail e
    | .ok v t1 stack2 path2 heap2 =>
      let heap3 := heapArrPush heap2 addr v
      if t1.ty = .delimiter ∧ t1.token = [','] then
        match getToken text t1.i with
        | .error e => .fail e
        | .ok t2 => parseArrayItems circ text n addr stackIndex t2 stack2 path2 heap3
      else closeArray text addr stackIndex t1 stack2 path2 heap3

end

/-- The module-level mutable state of the source (lines 42-52): re-used across
calls in the source, re-initialized by every `parse` call (lines 71-79). -/
structure ModuleState where
  jsonText : Chars
  index : Nat
  c : Chars
  token : Chars
  tokenType : TokenType
  stack : List JsVal
  path : List Chars
deriving Repr

/-- The state `parse` installs before doing anything (lines 71-79): every
field of the module state is overwritten from the new arguments. -/
def initState (text : Chars) : ModuleState :=
  { jsonText := text
    index := 0
    c := text.take 1
    token := []
    tokenType := .null
    stack := []
    path := [] }

/-- Fuel given to the recursive descent by the entry point; the sufficiency
theorem shows it is always enough. -/
def parseFuel (text : Chars) : Nat :=
  4 * text.length + 20

/-- Result of the entry point: the value together with the heap its references
live in, or an error. -/
inductive TopRes where
  | ok (v : JsVal) (heap : Heap)
  | fail (e : Err)
  | spin
deriving DecidableEq, Repr

/-- The entry point `parse` (lines 69-92).  `ms` is the module state left over
from any previous call; lines 71-79 overwrite all of it (`initState`), so the
run depends only on the arguments.  `circ` is the configuration switch and
`rev` the external `revive` collaborator applied when a reviver is supplied
(line 91); both are outside `src/` and passed as parameters.  After the single
value is parsed the token stream must be exhausted, else the trailing-input
error is raised at the default position (lines 87-89). -/
def parse (ms : ModuleState) (text : Chars) (circ : Bool)
    (rev : Option (JsVal × Heap → JsVal × Heap)) : TopRes :=
  let st := initState text
  match getToken st.jsonText st.index with
  | .error e => .fail e
  | .ok t0 =>
    match parseObject circ st.jsonText (parseFuel text) t0 st.stack st.path [] with
    | .spin => .spin
    | .fail e => .fail e
    | .ok v t _ _ heap =>
      if t.token = [] then
        match rev with
        | some f => .ok (f (v, heap)).1 (f (v, heap)).2
        | none => .ok v heap
      else .fail ⟨"Unexpected characters", some (defaultPos t)⟩

/-- Number of halvings needed to bring `m` below the 53-bit significand
range; the fuel (first argument) is a bound on that count — 1100 covers every
integer in the binary64 range (below `2 ^ 1024`). -/
def shiftForDouble : Nat → Nat → Nat
  | 0, _ => 0
  | f + 1, m => if m < 2 ^ 53 then 0 else shiftForDouble f (m / 2) + 1

/-- Models the JavaScript coercion `token/1` (line 439) on nonnegative integer
literals: `ToNumber` rounds the exact integer to the nearest binary64 value
(53-bit significand, ties to even).  Stated for integers below the binary64
overflow threshold, which covers every input used here. -/
def jsToNumberInt (n : Nat) : Nat :=
  if n < 2 ^ 53 then n
  else
    let s := shiftForDouble 1100 n
    let q := n / 2 ^ s
    let r := n % 2 ^ s
    let q' :=
      if r * 2 < 2 ^ s then q
      else if r * 2 > 2 ^ s then q + 1
      else if q % 2 = 0 then q else q + 1
    q' * 2 ^ s

/-! ### Scanner lemmas: index monotonicity, positions, and bounds -/

theorem skipWS_idx_ge : ∀ (l : Chars) (i : Nat), i ≤ (skipWS l i).2 := by
  intro l
  induction l with
  | nil => intro i; simp [skipWS]
  | cons ch rest ih =>
    intro i
    simp only [skipWS]
    split
    · exact le_trans (Nat.le_succ i) (ih (i + 1))
    · exact le_refl i

theorem skipWS_conserve : ∀ (l : Chars) (i : Nat),
    (skipWS l i).2 + (skipWS l i).1.length = i + l.length := by
  intro l
  induction l with
  | nil => intro i; simp [skipWS]
  | cons ch rest ih =>
    intro i
    simp only [skipWS]
    split
    · rw [ih (i + 1)]; simp; omega
    · simp

theorem scanDigits_idx_ge : ∀ (l : Chars) (i : Nat) (acc : Chars),
    i ≤ (scanDigits l i acc).2.1 := by
  intro l
  induction l with
  | nil => intro i acc; simp [scanDigits]
  | cons ch rest ih =>
    intro i acc
    simp only [scanDigits]
    split
    · exact le_trans (Nat.le_succ i) (ih (i + 1) _)
    · exact le_refl i

theorem scanDigits_conserve : ∀ (l : Chars) (i : Nat) (acc : Chars),
    (scanDigits l i acc).2.1 + (scanDigits l i acc).2.2.length = i + l.length := by
  intro l
  induction l with
  | nil => intro i acc; simp [scanDigits]
  | cons ch rest ih =>
    intro i acc
    simp only [scanDigits]
    split
    · rw [ih (i + 1) _]; simp; omega
    · simp

theorem scanDigits_len : ∀ (l : Chars) (i : Nat) (acc : Chars),
    (scanDigits l i acc).2.1 + acc.length = i + ((scanDigits l i acc).1).length := by
  intro l
  induction l with
  | nil => intro i acc; simp [scanDigits]
  | cons ch rest ih =>
    intro i acc
    simp only [scanDigits]
    split
    · have h := ih (i + 1) (acc ++ [ch]); simp at h; omega
    · simp

theorem scanExp_spec (l : Chars) (i : Nat) (acc : Chars) (t : Tok)
    (h : scanExp l i acc = .ok t) :
    i ≤ t.i ∧ t.i + acc.length = i + t.token.length ∧ t.i ≤ i + l.length ∧
      t.ty = .number := by
  simp only [scanExp] at h
  split at h <;>
    [skip;
     (simp only [Except.ok.injEq] at h; subst h; simp)]
  split at h <;>
    [skip;
     (simp only [Except.ok.injEq] at h; subst h; simp)]
  · rename_i ch rest hcase
    split at h
    · rename_i ch2 rest2
      split at h
      · split at h
        · rename_i ch3 tail
          split at h
          · simp only [Except.ok.injEq] at h
            subst h
            dsimp only
            have h1 := scanDigits_idx_ge (ch3 :: tail) (i + 2) (acc ++ [ch, ch2])
            have h2 := scanDigits_len (ch3 :: tail) (i + 2) (acc ++ [ch, ch2])
            have h3 := scanDigits_conserve (ch3 :: tail) (i + 2) (acc ++ [ch, ch2])
            simp only [List.length_append, List.length_cons, List.length_nil] at h2 h3 ⊢
            exact ⟨by omega, by omega, by omega, trivial⟩
          · exact absurd h (by simp)
        · exact absurd h (by simp)
      · split at h
        · simp only [Except.ok.injEq] at h
          subst h
          dsimp only
          have h1 := scanDigits_idx_ge (ch2 :: rest2) (i + 1) (acc ++ [ch])
          have h2 := scanDigits_len (ch2 :: rest2) (i + 1) (acc ++ [ch])
          have h3 := scanDigits_conserve (ch2 :: rest2) (i + 1) (acc ++ [ch])
          simp only [List.length_append, List.length_cons, List.length_nil] at h2 h3 ⊢
          exact ⟨by omega, by omega, by omega, trivial⟩
        · exact absurd h (by simp)
    · exact absurd h (by simp)

theorem scanDigitsThenExp_spec (l : Chars) (i : Nat) (acc : Chars) (t : Tok)
    (h : scanExp (scanDigits l i acc).2.2 (scanDigits l i acc).2.1
          (scanDigits l i acc).1 = .ok t) :
    i ≤ t.i ∧ t.i + acc.length = i + t.token.length ∧ t.i ≤ i + l.length ∧
      t.ty = .number := by
  have e := scanExp_spec _ _ _ _ h
  have d1 := scanDigits_idx_ge l i acc
  have d2 := scanDigits_len l i acc
  have d3 := scanDigits_conserve l i acc
  exact ⟨by omega, by omega, by omega, e.2.2.2⟩

theorem scanFracExp_spec (l : Chars) (i : Nat) (acc : Chars) (t : Tok)
    (h : scanFracExp l i acc = .ok t) :
    i ≤ t.i ∧ t.i + acc.length = i + t.token.length ∧ t.i ≤ i + l.length ∧
      t.ty = .number := by
  simp only [scanFracExp] at h
  split at h
  · rename_i rest
    split at h
    · split at h
      · have e := scanDigitsThenExp_spec _ _ _ _ h
        simp only [List.length_append, List.length_cons, List.length_nil] at e ⊢
        exact ⟨by omega, by omega, by omega, e.2.2.2⟩
      · exact absurd h (by simp)
    · exact absurd h (by simp)
  · exact scanExp_spec l i acc t h

theorem scanNumTail_spec (l : Chars) (i : Nat) (acc : Chars) (t : Tok)
    (h : scanNumTail l i acc = .ok t) :
    i ≤ t.i ∧ t.i + acc.length = i + t.token.length ∧ t.i ≤ i + l.length ∧
      t.ty = .number := by
  simp only [scanNumTail] at h
  split at h
  · rename_i rest
    have e := scanFracExp_spec _ _ _ _ h
    have d1 := scanDigits_idx_ge rest (i + 1) (acc ++ ['0'])
    have d2 := scanDigits_len rest (i + 1) (acc ++ ['0'])
    have d3 := scanDigits_conserve rest (i + 1) (acc ++ ['0'])
    simp only [List.length_append, List.length_cons, List.length_nil] at d2 d3 e ⊢
    exact ⟨by omega, by omega, by omega, e.2.2.2⟩
  · have e := scanFracExp_spec _ _ _ _ h
    have d1 := scanDigits_idx_ge l i acc
    have d2 := scanDigits_len l i acc
    have d3 := scanDigits_conserve l i acc
    exact ⟨by omega, by omega, by omega, e.2.2.2⟩

theorem scanNumber_spec (l : Chars) (i : Nat) (t : Tok)
    (h : scanNumber l i = .ok t) :
    i ≤ t.i ∧ t.i = i + t.token.length ∧ t.i ≤ i + l.length ∧
      t.ty = .number := by
  simp only [scanNumber] at h
  split at h
  · rename_i rest
    split at h
    · split at h
      · have e := scanNumTail_spec _ _ _ _ h
        simp only [List.length_cons, List.length_nil] at e ⊢
        exact ⟨by omega, by omega, by omega, e.2.2.2⟩
      · exact absurd h (by simp)
    · exact absurd h (by simp)
  · have e := scanNumTail_spec _ _ _ _ h
    simp only [List.length_nil] at e
    exact ⟨e.1, by omega, e.2.2.1, e.2.2.2⟩


theorem scanStr_spec_all : ∀ n : Nat,
    (∀ (l : Chars) (i : Nat) (acc : Chars) (t : Tok), l.length ≤ n →
      scanString l i acc = .ok t →
      i + 1 ≤ t.i ∧ t.i ≤ i + l.length ∧ t.ty = .string) ∧
    (∀ (l : Chars) (i : Nat) (acc : Chars) (t : Tok), l.length ≤ n →
      scanEscape l i acc = .ok t →
      i + 1 ≤ t.i ∧ t.i ≤ i + l.length ∧ t.ty = .string) ∧
    (∀ (l : Chars) (i : Nat) (acc : Chars) (k val : Nat) (t : Tok), l.length ≤ n →
      scanHex l i acc k val = .ok t →
      i + 1 ≤ t.i ∧ t.i ≤ i + l.length ∧ t.ty = .string) := by
  intro n
  induction n with
  | zero =>
    refine ⟨?_, ?_, ?_⟩
    · intro l i acc t hl h
      have hnil : l = [] := List.length_eq_zero.mp (Nat.le_zero.mp hl)
      subst hnil; simp [scanString] at h
    · intro l i acc t hl h
      have hnil : l = [] := List.length_eq_zero.mp (Nat.le_zero.mp hl)
      subst hnil; simp [scanEscape] at h
    · intro l i acc k val t hl h
      have hnil : l = [] := List.length_eq_zero.mp (Nat.le_zero.mp hl)
      subst hnil; simp [scanHex] at h
  | succ n ih =>
    obtain ⟨ihS, ihE, ihH⟩ := ih
    refine ⟨?_, ?_, ?_⟩
    · intro l i acc t hl h
      cases l with
      | nil => simp [scanString] at h
      | cons ch rest =>
        simp only [List.length_cons] at hl
        simp only [scanString] at h
        split at h
        · simp only [Except.ok.injEq] at h
          subst h
          dsimp only
          simp only [List.length_cons]
          exact ⟨by omega, by omega, trivial⟩
        · split at h
          · have hr := ihE rest (i + 1) acc t (by omega) h
            simp only [List.length_cons]
            exact ⟨by omega, by omega, hr.2.2⟩
          · have hr := ihS rest (i + 1) (acc ++ [ch]) t (by omega) h
            simp only [List.length_cons]
            exact ⟨by omega, by omega, hr.2.2⟩
    · intro l i acc t hl h
      cases l with
      | nil => simp [scanEscape] at h
      | cons ec rest2 =>
        simp only [List.length_cons] at hl
        simp only [scanEscape] at h
        split at h
        · have hr := ihS rest2 (i + 1) _ t (by omega) h
          simp only [List.length_cons]
          exact ⟨by omega, by omega, hr.2.2⟩
        · split at h
          · have hr := ihH rest2 (i + 1) acc 0 0 t (by omega) h
            simp only [List.length_cons]
            exact ⟨by omega, by omega, hr.2.2⟩
          · exact absurd h (by simp)
    · intro l i acc k val t hl h
      cases l with
      | nil => simp [scanHex] at h
      | cons c rest =>
        simp only [List.length_cons] at hl
        simp only [scanHex] at h
        split at h
        · split at h
          · have hr := ihS rest (i + 1) _ t (by omega) h
            simp only [List.length_cons]
            exact ⟨by omega, by omega, hr.2.2⟩
          · have hr := ihH rest (i + 1) acc _ _ t (by omega) h
            simp only [List.length_cons]
            exact ⟨by omega, by omega, hr.2.2⟩
        · exact absurd h (by simp)

theorem scanString_spec (n : Nat) (l : Chars) (i : Nat) (acc : Chars) (t : Tok)
    (hl : l.length ≤ n) (h : scanString l i acc = .ok t) :
    i + 1 ≤ t.i ∧ t.i ≤ i + l.length ∧ t.ty = .string :=
  (scanStr_spec_all n).1 l i acc t hl h

theorem scanSymbol_spec : ∀ (l : Chars) (i : Nat) (acc : Chars),
    i ≤ (scanSymbol l i acc).i ∧
      (scanSymbol l i acc).i + acc.length = i + (scanSymbol l i acc).token.length ∧
      (scanSymbol l i acc).i ≤ i + l.length ∧
      (scanSymbol l i acc).ty = .symbol := by
  intro l
  induction l with
  | nil => intro i acc; simp [scanSymbol]
  | cons ch rest ihl =>
    intro i acc
    simp only [scanSymbol]
    split
    · have hr := ihl (i + 1) (acc ++ [ch])
      simp only [List.length_append, List.length_cons, List.length_nil] at hr ⊢
      exact ⟨by omega, by omega, by omega, hr.2.2.2⟩
    · simp

theorem scanNumber_advance (ch : Char) (rest : Chars) (i : Nat) (t : Tok)
    (hch : isDigit ch = true ∨ ch = '-')
    (h : scanNumber (ch :: rest) i = .ok t) : i + 1 ≤ t.i := by
  rcases hch with hd | hm
  · have hne : ch ≠ '-' := by
      intro he; subst he; simp [isDigit] at hd
    simp only [scanNumber] at h
    split at h
    · rename_i heq
      exact absurd (List.cons.injEq _ _ _ _ ▸ heq).1 hne
    · by_cases h0 : ch = '0'
      · subst h0
        simp only [scanNumTail] at h
        have e3 := scanFracExp_spec _ _ _ _ h
        have d1 := scanDigits_idx_ge rest (i + 1) ([] ++ ['0'])
        omega
      · simp only [scanNumTail] at h
        split at h
        · rename_i heq
          exact absurd (List.cons.injEq _ _ _ _ ▸ heq).1 h0
        · simp only [scanDigits, hd, if_pos] at h
          have e3 := scanFracExp_spec _ _ _ _ h
          have d1 := scanDigits_idx_ge rest (i + 1) ([] ++ [ch])
          omega
  · subst hm
    simp only [scanNumber] at h
    split at h
    · split at h
      · have e2 := scanNumTail_spec _ _ _ _ h
        omega
      · exact absurd h (by simp)
    · exact absurd h (by simp)

theorem tokenAt_advance (l : Chars) (i : Nat) (t : Tok)
    (h : tokenAt l i = .ok t) : i + 1 ≤ t.i := by
  cases l with
  | nil =>
    simp only [tokenAt, Except.ok.injEq] at h
    subst h; dsimp only; omega
  | cons ch rest =>
    simp only [tokenAt] at h
    split at h
    · simp only [Except.ok.injEq] at h; subst h; dsimp only; omega
    · split at h
      · rename_i hnum
        exact scanNumber_advance ch rest i t (by simpa using hnum) h
      · split at h
        · have e := scanString_spec (rest.length) rest (i + 1) [] t (le_refl _) h
          omega
        · split at h
          · rename_i halpha
            simp only [Except.ok.injEq] at h
            subst h
            simp only [scanSymbol, halpha, if_pos]
            have d := scanSymbol_spec rest (i + 1) ([] ++ [ch])
            omega
          · exact absurd h (by simp)


theorem getToken_advance (text : Chars) (i : Nat) (t : Tok)
    (h : getToken text i = .ok t) : i + 1 ≤ t.i := by
  simp only [getToken] at h
  have h1 := skipWS_idx_ge (text.drop i) i
  have h2 := tokenAt_advance _ _ _ h
  omega

/-- Scanning at or past the end of the text always yields the end-of-input
token: the empty-string delimiter, with the index still incremented by the
`next()` of the delimiter branch. -/
theorem getToken_eof (text : Chars) (i : Nat) (hle : text.length ≤ i) :
    getToken text i = .ok ⟨[], .delimiter, i + 1⟩ := by
  have hdrop : text.drop i = [] := List.drop_eq_nil_of_le hle
  simp [getToken, hdrop, skipWS, tokenAt]

theorem tokenAt_bound (l : Chars) (i : Nat) (t : Tok)
    (h : tokenAt l i = .ok t) (hne : t.token ≠ []) : t.i ≤ i + l.length := by
  cases l with
  | nil =>
    simp only [tokenAt, Except.ok.injEq] at h
    subst h
    exact absurd rfl hne
  | cons ch rest =>
    simp only [tokenAt] at h
    split at h
    · simp only [Except.ok.injEq] at h; subst h; simp
    · split at h
      · have e := scanNumber_spec _ _ _ h
        exact e.2.2.1
      · split at h
        · have e := scanString_spec rest.length rest (i + 1) [] t (le_refl _) h
          simp only [List.length_cons]
          omega
        · split at h
          · simp only [Except.ok.injEq] at h
            subst h
            have e := scanSymbol_spec (ch :: rest) i []
            exact e.2.2.1
          · exact absurd h (by simp)

/-- A token with nonempty text never ends past the end of the text: real
characters were consumed to form it. -/
theorem getToken_bound (text : Chars) (i : Nat) (t : Tok)
    (h : getToken text i = .ok t) (hne : t.token ≠ []) : t.i ≤ text.length := by
  simp only [getToken] at h
  have hc := skipWS_conserve (text.drop i) i
  have hb := tokenAt_bound _ _ _ h hne
  have hd : (text.drop i).length = text.length - i := by simp
  by_cases hle : i ≤ text.length
  · omega
  · exfalso
    have hdrop : text.drop i = [] := List.drop_eq_nil_of_le (by omega)
    rw [hdrop] at h
    simp only [skipWS] at h
    simp only [tokenAt, Except.ok.injEq] at h
    -- at end of input the token is empty, contradicting hne
    have : t.token = [] := by rw [← h]
    exact hne this

/-- Position of the reported token for non-string tokens: the scan ends
exactly `token.length` characters after the whitespace skip, so
`index - token.length` is the first non-whitespace position.  String tokens
are excluded: their decoded length differs from the consumed length. -/
theorem getToken_pos (text : Chars) (i : Nat) (t : Tok)
    (h : getToken text i = .ok t) (hne : t.token ≠ []) (hty : t.ty ≠ .string) :
    t.i = (skipWS (text.drop i) i).2 + t.token.length := by
  simp only [getToken] at h
  generalize hp : skipWS (text.drop i) i = p at h ⊢
  obtain ⟨l, j⟩ := p
  dsimp only at h ⊢
  cases l with
  | nil =>
    simp only [tokenAt, Except.ok.injEq] at h
    subst h
    exact absurd rfl hne
  | cons ch rest =>
    simp only [tokenAt] at h
    split at h
    · simp only [Except.ok.injEq] at h; subst h; simp
    · split at h
      · have e := scanNumber_spec _ _ _ h
        omega
      · split at h
        · have e := scanString_spec rest.length rest (j + 1) [] t (le_refl _) h
          exact absurd e.2.2 hty
        · split at h
          · simp only [Except.ok.injEq] at h
            subst h
            have e := scanSymbol_spec (ch :: rest) j []
            simp only [List.length_nil] at e
            omega
          · exact absurd h (by simp)


/-! ### Grammar-parser lemmas: scalar parsers, monotonicity, provenance -/

theorem parseEnd_ne_ok (t : Tok) (v : JsVal) (t' : Tok) (s' : List JsVal)
    (p' : List Chars) (h' : Heap) : parseEnd t ≠ .ok v t' s' p' h' := by
  unfold parseEnd
  split <;> simp

theorem parseEnd_ne_spin (t : Tok) : parseEnd t ≠ .spin := by
  unfold parseEnd
  split <;> simp

theorem parseSymbol_ne_spin (text : Chars) (t : Tok) (stack : List JsVal)
    (path : List Chars) (heap : Heap) :
    parseSymbol text t stack path heap ≠ .spin := by
  unfold parseSymbol
  split
  · split
    · split <;> simp
    · split
      · split <;> simp
      · split
        · split <;> simp
        · simp
  · exact parseEnd_ne_spin t

theorem parseNumber_ne_spin (text : Chars) (t : Tok) (stack : List JsVal)
    (path : List Chars) (heap : Heap) :
    parseNumber text t stack path heap ≠ .spin := by
  unfold parseNumber
  split
  · split <;> simp
  · exact parseSymbol_ne_spin text t stack path heap

theorem parseString_ne_spin (text : Chars) (t : Tok) (stack : List JsVal)
    (path : List Chars) (heap : Heap) :
    parseString text t stack path heap ≠ .spin := by
  unfold parseString
  split
  · split <;> simp
  · exact parseNumber_ne_spin text t stack path heap

theorem closeObject_ne_spin (circ : Bool) (text : Chars) (addr stackIndex : Nat)
    (t : Tok) (stack : List JsVal) (path : List Chars) (heap : Heap) :
    closeObject circ text addr stackIndex t stack path heap ≠ .spin := by
  unfold closeObject
  split
  · split
    · simp
    · split
      · split <;> simp
      · simp
  · simp

theorem closeArray_ne_spin (text : Chars) (addr stackIndex : Nat)
    (t : Tok) (stack : List JsVal) (path : List Chars) (heap : Heap) :
    closeArray text addr stackIndex t stack path heap ≠ .spin := by
  unfold closeArray
  split
  · split <;> simp
  · simp

theorem parseSymbol_ok (text : Chars) (t : Tok) (stack : List JsVal)
    (path : List Chars) (heap : Heap) (v : JsVal) (t' : Tok) (s' : List JsVal)
    (p' : List Chars) (h' : Heap)
    (h : parseSymbol text t stack path heap = .ok v t' s' p' h') :
    t.i + 1 ≤ t'.i ∧ ∃ j, getToken text j = .ok t' := by
  unfold parseSymbol at h
  split at h
  · split at h
    · split at h
      · exact absurd h (by simp)
      · rename_i hg
        simp only [PRes.ok.injEq] at h
        obtain ⟨-, ht, -, -, -⟩ := h
        subst ht
        exact ⟨getToken_advance _ _ _ hg, ⟨t.i, hg⟩⟩
    · split at h
      · split at h
        · exact absurd h (by simp)
        · rename_i hg
          simp only [PRes.ok.injEq] at h
          obtain ⟨-, ht, -, -, -⟩ := h
          subst ht
          exact ⟨getToken_advance _ _ _ hg, ⟨t.i, hg⟩⟩
      · split at h
        · split at h
          · exact absurd h (by simp)
          · rename_i hg
            simp only [PRes.ok.injEq] at h
            obtain ⟨-, ht, -, -, -⟩ := h
            subst ht
            exact ⟨getToken_advance _ _ _ hg, ⟨t.i, hg⟩⟩
        · exact absurd h (by simp)
  · exact absurd h (parseEnd_ne_ok t v t' s' p' h')

theorem parseNumber_ok (text : Chars) (t : Tok) (stack : List JsVal)
    (path : List Chars) (heap : Heap) (v : JsVal) (t' : Tok) (s' : List JsVal)
    (p' : List Chars) (h' : Heap)
    (h : parseNumber text t stack path heap = .ok v t' s' p' h') :
    t.i + 1 ≤ t'.i ∧ ∃ j, getToken text j = .ok t' := by
  unfold parseNumber at h
  split at h
  · split at h
    · exact absurd h (by simp)
    · rename_i t1 hg
      simp only [PRes.ok.injEq] at h
      obtain ⟨-, ht, -, -, -⟩ := h
      subst ht
      exact ⟨getToken_advance _ _ _ hg, ⟨t.i, hg⟩⟩
  · exact parseSymbol_ok text t stack path heap v t' s' p' h' h

theorem parseString_ok (text : Chars) (t : Tok) (stack : List JsVal)
    (path : List Chars) (heap : Heap) (v : JsVal) (t' : Tok) (s' : List JsVal)
    (p' : List Chars) (h' : Heap)
    (h : parseString text t stack path heap = .ok v t' s' p' h') :
    t.i + 1 ≤ t'.i ∧ ∃ j, getToken text j = .ok t' := by
  unfold parseString at h
  split at h
  · split at h
    · exact absurd h (by simp)
    · rename_i t1 hg
      simp only [PRes.ok.injEq] at h
      obtain ⟨-, ht, -, -, -⟩ := h
      subst ht
      exact ⟨getToken_advance _ _ _ hg, ⟨t.i, hg⟩⟩
  · exact parseNumber_ok text t stack path heap v t' s' p' h' h

theorem closeObject_ok (circ : Bool) (text : Chars) (addr stackIndex : Nat)
    (t : Tok) (stack : List JsVal) (path : List Chars) (heap : Heap)
    (v : JsVal) (t' : Tok) (s' : List JsVal) (p' : List Chars) (h' : Heap)
    (h : closeObject circ text addr stackIndex t stack path heap = .ok v t' s' p' h') :
    t.i + 1 ≤ t'.i ∧ ∃ j, getToken text j = .ok t' := by
  unfold closeObject at h
  split at h
  · split at h
    · exact absurd h (by simp)
    · rename_i t1 hg
      split at h
      · split at h
        · exact absurd h (by simp)
        · simp only [PRes.ok.injEq] at h
          obtain ⟨-, ht, -, -, -⟩ := h
          subst ht
          exact ⟨getToken_advance _ _ _ hg, ⟨t.i, hg⟩⟩
      · simp only [PRes.ok.injEq] at h
        obtain ⟨-, ht, -, -, -⟩ := h
        subst ht
        exact ⟨getToken_advance _ _ _ hg, ⟨t.i, hg⟩⟩
  · exact absurd h (by simp)

theorem closeArray_ok (text : Chars) (addr stackIndex : Nat)
    (t : Tok) (stack : List JsVal) (path : List Chars) (heap : Heap)
    (v : JsVal) (t' : Tok) (s' : List JsVal) (p' : List Chars) (h' : Heap)
    (h : closeArray text addr stackIndex t stack path heap = .ok v t' s' p' h') :
    t.i + 1 ≤ t'.i ∧ ∃ j, getToken text j = .ok t' := by
  unfold closeArray at h
  split at h
  · split at h
    · exact absurd h (by simp)
    · rename_i t1 hg
      simp only [PRes.ok.injEq] at h
      obtain ⟨-, ht, -, -, -⟩ := h
      subst ht
      exact ⟨getToken_advance _ _ _ hg, ⟨t.i, hg⟩⟩
  · exact absurd h (by simp)


/-- Index monotonicity and token provenance for the recursive-descent
functions: a successful parse never moves the scanner backwards, and the
resulting current token was produced by `getToken` at some position. -/
theorem parseMono (circ : Bool) (text : Chars) : ∀ n : Nat,
    (∀ t stack path heap v t' s' p' h',
      parseObject circ text n t stack path heap = .ok v t' s' p' h' →
      t.i ≤ t'.i ∧ ∃ j, getToken text j = .ok t') ∧
    (∀ addr si t stack path heap v t' s' p' h',
      parseObjectMembers circ text n addr si t stack path heap = .ok v t' s' p' h' →
      t.i ≤ t'.i ∧ ∃ j, getToken text j = .ok t') ∧
    (∀ t stack path heap v t' s' p' h',
      parseArray circ text n t stack path heap = .ok v t' s' p' h' →
      t.i ≤ t'.i ∧ ∃ j, getToken text j = .ok t') ∧
    (∀ addr si t stack path heap v t' s' p' h',
      parseArrayItems circ text n addr si t stack path heap = .ok v t' s' p' h' →
      t.i ≤ t'.i ∧ ∃ j, getToken text j = .ok t') := by
  intro n
  induction n with
  | zero =>
    refine ⟨?_, ?_, ?_, ?_⟩ <;> intros <;>
      simp [parseObject, parseObjectMembers, parseArray, parseArrayItems] at *
  | succ n ih =>
    obtain ⟨ihO, ihM, ihA, ihI⟩ := ih
    refine ⟨?_, ?_, ?_, ?_⟩
    · -- parseObject
      intro t stack path heap v t' s' p' h' h
      simp only [parseObject] at h
      split at h
      · split at h
        · exact absurd h (by simp)
        · rename_i t1 hg1
          split at h
          · split at h
            · exact absurd h (by simp)
            · rename_i t2 hg2
              simp only [PRes.ok.injEq] at h
              obtain ⟨-, ht, -, -, -⟩ := h
              subst ht
              have a1 := getToken_advance _ _ _ hg1
              have a2 := getToken_advance _ _ _ hg2
              exact ⟨by omega, ⟨t1.i, hg2⟩⟩
          · have hm := ihM _ _ _ _ _ _ _ _ _ _ _ h
            have a1 := getToken_advance _ _ _ hg1
            exact ⟨by omega, hm.2⟩
      · have ha := ihA _ _ _ _ _ _ _ _ _ h
        exact ha
    · -- parseObjectMembers
      intro addr si t stack path heap v t' s' p' h' h
      simp only [parseObjectMembers] at h
      split at h
      · split at h
        · exact absurd h (by simp)
        · rename_i t1 hg1
          split at h
          · split at h
            · exact absurd h (by simp)
            · rename_i t2 hg2
              split at h
              · exact absurd h (by simp)
              · exact absurd h (by simp)
              · rename_i v3 t3 s3 p3 h3 hO
                split at h
                · split at h
                  · exact absurd h (by simp)
                  · rename_i t4 hg4
                    have hm := ihM _ _ _ _ _ _ _ _ _ _ _ h
                    have a1 := getToken_advance _ _ _ hg1
                    have a2 := getToken_advance _ _ _ hg2
                    have a3 := (ihO _ _ _ _ _ _ _ _ _ hO).1
                    have a4 := getToken_advance _ _ _ hg4
                    exact ⟨by omega, hm.2⟩
                · have hc := closeObject_ok _ _ _ _ _ _ _ _ _ _ _ _ _ h
                  have a1 := getToken_advance _ _ _ hg1
                  have a2 := getToken_advance _ _ _ hg2
                  have a3 := (ihO _ _ _ _ _ _ _ _ _ hO).1
                  exact ⟨by omega, hc.2⟩
          · exact absurd h (by simp)
      · exact absurd h (by simp)
    · -- parseArray
      intro t stack path heap v t' s' p' h' h
      simp only [parseArray] at h
      split at h
      · split at h
        · exact absurd h (by simp)
        · rename_i t1 hg1
          split at h
          · split at h
            · exact absurd h (by simp)
            · rename_i t2 hg2
              simp only [PRes.ok.injEq] at h
              obtain ⟨-, ht, -, -, -⟩ := h
              subst ht
              have a1 := getToken_advance _ _ _ hg1
              have a2 := getToken_advance _ _ _ hg2
              exact ⟨by omega, ⟨t1.i, hg2⟩⟩
          · have hm := ihI _ _ _ _ _ _ _ _ _ _ _ h
            have a1 := getToken_advance _ _ _ hg1
            exact ⟨by omega, hm.2⟩
      · have hs := parseString_ok _ _ _ _ _ _ _ _ _ _ h
        exact ⟨by omega, hs.2⟩
    · -- parseArrayItems
      intro addr si t stack path heap v t' s' p' h' h
      simp only [parseArrayItems] at h
      split at h
      · exact absurd h (by simp)
      · exact absurd h (by simp)
      · rename_i v1 t1 s1 p1 h1 hO
        split at h
        · split at h
          · exact absurd h (by simp)
          · rename_i t2 hg2
            have hm := ihI _ _ _ _ _ _ _ _ _ _ _ h
            have a1 := (ihO _ _ _ _ _ _ _ _ _ hO).1
            have a2 := getToken_advance _ _ _ hg2
            exact ⟨by omega, hm.2⟩
        · have hc := closeArray_ok _ _ _ _ _ _ _ _ _ _ _ _ h
          have a1 := (ihO _ _ _ _ _ _ _ _ _ hO).1
          exact ⟨by omega, hc.2⟩


/-- Past the end of the text every token is the end-of-input delimiter, so a
value parse falls through the whole production chain to `parseEnd`. -/
theorem parseAtEof (circ : Bool) (text : Chars) (n : Nat) (t : Tok)
    (stack : List JsVal) (path : List Chars) (heap : Heap)
    (hty : t.ty = .delimiter) (htok : t.token = []) (hn : 2 ≤ n) :
    parseObject circ text n t stack path heap = parseEnd t := by
  obtain ⟨m, rfl⟩ : ∃ m, n = m + 2 := ⟨n - 2, by omega⟩
  simp [parseObject, parseArray, parseString, parseNumber, parseSymbol, hty, htok]

/-- The member loop fails immediately when the current token is not a string
key. -/
theorem membersNotString (circ : Bool) (text : Chars) (n : Nat)
    (addr si : Nat) (t : Tok) (stack : List JsVal) (path : List Chars)
    (heap : Heap) (hty : t.ty ≠ .string) (hn : 1 ≤ n) :
    parseObjectMembers circ text n addr si t stack path heap =
      .fail ⟨"Object key expected", some (defaultPos t)⟩ := by
  obtain ⟨m, rfl⟩ : ∃ m, n = m + 1 := ⟨n - 1, by omega⟩
  simp [parseObjectMembers, hty]

/-- Fuel sufficiency: with fuel at least linear in the remaining text, none of
the recursive-descent functions runs out — the termination argument for the
recursive descent. -/
theorem noSpin (circ : Bool) (text : Chars) : ∀ n : Nat,
    (∀ t stack path heap, 4 * (text.length + 2 - t.i) + 8 ≤ n →
      parseObject circ text n t stack path heap ≠ .spin) ∧
    (∀ addr si t stack path heap, 4 * (text.length + 2 - t.i) + 8 ≤ n →
      parseObjectMembers circ text n addr si t stack path heap ≠ .spin) ∧
    (∀ t stack path heap, 4 * (text.length + 2 - t.i) + 7 ≤ n →
      parseArray circ text n t stack path heap ≠ .spin) ∧
    (∀ addr si t stack path heap, 4 * (text.length + 2 - t.i) + 9 ≤ n →
      parseArrayItems circ text n addr si t stack path heap ≠ .spin) := by
  intro n
  induction n with
  | zero =>
    refine ⟨?_, ?_, ?_, ?_⟩ <;> (intros; omega)
  | succ n ih =>
    obtain ⟨ihO, ihM, ihA, ihI⟩ := ih
    refine ⟨?_, ?_, ?_, ?_⟩
    · -- parseObject
      intro t stack path heap hb hspin
      simp only [parseObject] at hspin
      split at hspin
      · split at hspin
        · simp at hspin
        · rename_i t1 hg1
          split at hspin
          · split at hspin <;> simp at hspin
          · by_cases hcor : text.length ≤ t.i
            · have heof := getToken_eof text t.i hcor
              rw [hg1] at heof
              simp only [Except.ok.injEq] at heof
              have hty1 : t1.ty ≠ .string := by rw [heof]; simp
              have hmns := membersNotString circ text n heap.length stack.length
                t1 (stack ++ [.vref heap.length]) path (heap ++ [.hobj []])
                hty1 (by omega)
              rw [hmns] at hspin
              simp at hspin
            · have a1 := getToken_advance _ _ _ hg1
              exact ihM _ _ _ _ _ _ (by omega) hspin
      · exact ihA _ _ _ _ (by omega) hspin
    · -- parseObjectMembers
      intro addr si t stack path heap hb hspin
      simp only [parseObjectMembers] at hspin
      split at hspin
      · split at hspin
        · simp at hspin
        · rename_i t1 hg1
          split at hspin
          · rename_i hcolon
            split at hspin
            · simp at hspin
            · rename_i t2 hg2
              -- rule out being at or past the end: the colon token would be
              -- the empty end-of-input token
              have hcor : t.i < text.length := by
                by_contra hcor
                have heof := getToken_eof text t.i (by omega)
                rw [hg1] at heof
                simp only [Except.ok.injEq] at heof
                have : t1.token = [':'] := hcolon.2
                rw [heof] at this
                simp at this
              have a1 := getToken_advance _ _ _ hg1
              have a2 := getToken_advance _ _ _ hg2
              split at hspin
              · rename_i hO
                exact ihO _ _ _ _ (by omega) hO
              · simp at hspin
              · rename_i v3 t3 s3 p3 h3 hO
                have a3 := ((parseMono circ text n).1 _ _ _ _ _ _ _ _ _ hO).1
                split at hspin
                · split at hspin
                  · simp at hspin
                  · rename_i t4 hg4
                    have a4 := getToken_advance _ _ _ hg4
                    exact ihM _ _ _ _ _ _ (by omega) hspin
                · exact closeObject_ne_spin _ _ _ _ _ _ _ _ hspin
          · simp at hspin
      · simp at hspin
    · -- parseArray
      intro t stack path heap hb hspin
      simp only [parseArray] at hspin
      split at hspin
      · split at hspin
        · simp at hspin
        · rename_i t1 hg1
          split at hspin
          · split at hspin <;> simp at hspin
          · by_cases hcor : text.length ≤ t.i
            · -- past the end: the item parse fails at once
              have heof := getToken_eof text t.i hcor
              rw [hg1] at heof
              simp only [Except.ok.injEq] at heof
              obtain ⟨m, rfl⟩ : ∃ m, n = m + 1 := ⟨n - 1, by omega⟩
              simp only [parseArrayItems] at hspin
              rw [parseAtEof circ text m t1 _ _ _ (by rw [heof]) (by rw [heof])
                (by omega), heof] at hspin
              simp [parseEnd] at hspin
            · have a1 := getToken_advance _ _ _ hg1
              exact ihI _ _ _ _ _ _ (by omega) hspin
      · exact parseString_ne_spin _ _ _ _ _ hspin
    · -- parseArrayItems
      intro addr si t stack path heap hb hspin
      simp only [parseArrayItems] at hspin
      split at hspin
      · rename_i hO
        exact ihO _ _ _ _ (by omega) hO
      · simp at hspin
      · rename_i v1 t1 s1 p1 h1 hO
        have a1 := ((parseMono circ text n).1 _ _ _ _ _ _ _ _ _ hO).1
        split at hspin
        · rename_i hcomma
          split at hspin
          · simp at hspin
          · rename_i t2 hg2
            have a2 := getToken_advance _ _ _ hg2
            by_cases hcor : text.length + 2 ≤ t.i
            · -- past the end: impossible, the comma token would have to be a
              -- real token ending beyond the text
              exfalso
              obtain ⟨-, j, hj⟩ := (parseMono circ text n).1 _ _ _ _ _ _ _ _ _ hO
              have hne : t1.token ≠ [] := by
                rw [hcomma.2]; simp
              have hbd := getToken_bound text j t1 hj hne
              omega
            · exact ihI _ _ _ _ _ _ (by omega) hspin
        · exact closeArray_ne_spin _ _ _ _ _ _ _ hspin


/-! ### Claim theorems -/

theorem prefixMatches_true_iff : ∀ (pp path : List Chars),
    prefixMatches pp path = true ↔ ∀ i, i < pp.length → path.get? i = pp.get? i := by
  intro pp
  induction pp with
  | nil => intro path; simp [prefixMatches]
  | cons p ps ih =>
    intro path
    cases path with
    | nil =>
      simp only [prefixMatches]
      constructor
      · intro h; exact absurd h (by simp)
      · intro h
        have h0 := h 0 (by simp)
        simp at h0
    | cons q qs =>
      simp only [prefixMatches]
      constructor
      · intro h i hi
        simp at h
        cases i with
        | zero => simp [h.1]
        | succ k =>
          have hk := (ih qs).mp (by exact_mod_cast h.2) k (by simpa using hi)
          simpa using hk
      · intro h
        have h0 := h 0 (by simp)
        simp only [List.get?] at h0
        have hrest : ∀ k, k < ps.length → qs.get? k = ps.get? k := by
          intro k hk
          have hx := h (k + 1) (by simpa using hk)
          simpa using hx
        have hb := (ih qs).mpr hrest
        simp only [Option.some.injEq] at h0
        simp [h0, hb]

/-- An arbitrary dirty module state left over from a previous call, used by
the concrete parse runs below; the entry point overwrites all of it. -/
def msArb : ModuleState :=
  ⟨"junk".toList, 7, ['x'], "tok".toList, .string, [.vnull], [['z']]⟩

/-- C5: when the circular-reference feature is disabled, every marker-shaped
mapping is returned unchanged by the resolver — no path validation, no stack
consultation, regardless of the stack contents — and a full parse of
`{"$ref": "#/a"}` yields an ordinary one-field mapping holding the raw
string. -/
theorem c5_disabled_passthrough :
    (∀ (heap : Heap) (addr : Nat) (stack : List JsVal) (path : List Chars),
      isCircular heap addr = true →
      parseCircular false heap addr stack path = .ok (.vref addr))
    ∧ parse msArb "\x7b\"$ref\": \"#/a\"\x7d".toList false none =
        .ok (.vref 0) [.hobj [("$ref".toList, .vstr "#/a".toList)]] := by
  constructor
  · intro heap addr stack path hmark
    simp [parseCircular]
  · rfl

/-- Witness for C5 at a concrete marker object and nonempty stack. -/
theorem c5_disabled_passthrough_witness :
    parseCircular false [.hobj [("$ref".toList, .vstr "#/x".toList)]] 0
      [.vnull, .vbool true] [['a']] = .ok (.vref 0) :=
  c5_disabled_passthrough.1 [.hobj [("$ref".toList, .vstr "#/x".toList)]] 0
    [.vnull, .vbool true] [['a']] (by decide)

/-- C4: with the feature enabled, the resolver walks the parsed pointer path
against the open-ancestor `path` stack.  Any mismatch — including out-of-range
reads of `path`, which yield `undefined` and so count as mismatches — raises
the fatal invalid-circular-reference error naming the marker string; a full
prefix match returns the live container at stack index equal to the path
length. -/
theorem c4_resolver (heap : Heap) (addr : Nat) (stack : List JsVal)
    (path : List Chars) (hmark : isCircular heap addr = true) :
    ((∃ i, i < (parsePointer (refString heap addr)).length ∧
        path.get? i ≠ (parsePointer (refString heap addr)).get? i) →
      parseCircular true heap addr stack path =
        .error ⟨circularMsg (refString heap addr), none⟩)
    ∧ ((∀ i, i < (parsePointer (refString heap addr)).length →
        path.get? i = (parsePointer (refString heap addr)).get? i) →
      (parsePointer (refString heap addr)).length < stack.length →
      ∃ v, stack.get? (parsePointer (refString heap addr)).length = some v ∧
        parseCircular true heap addr stack path = .ok v) := by
  constructor
  · intro hmis
    have hF : prefixMatches (parsePointer (refString heap addr)) path = false := by
      rcases Bool.eq_false_or_eq_true
        (prefixMatches (parsePointer (refString heap addr)) path) with ht | hf
      · obtain ⟨i, hi, hne⟩ := hmis
        exact absurd ((prefixMatches_true_iff _ _).mp ht i hi) hne
      · exact hf
    simp [parseCircular, hF]
  · intro hall hlt
    have hT : prefixMatches (parsePointer (refString heap addr)) path = true :=
      (prefixMatches_true_iff _ _).mpr hall
    refine ⟨stack.getD (parsePointer (refString heap addr)).length .vundef, ?_, ?_⟩
    · rw [List.getD_eq_getElem?_getD, List.getElem?_eq_getElem hlt]
      simp [List.get?_eq_getElem?, List.getElem?_eq_getElem hlt]
    · simp [parseCircular, hT]

/-- Witness for C4: the marker `#/x` mismatches the open path `a` (error
naming the marker), and the marker `#/a` matches, resolving to the stack
entry one level down. -/
theorem c4_resolver_witness :
    (parseCircular true [.hobj [("$ref".toList, .vstr "#/x".toList)]] 0
      [.vref 0, .vref 1] [['a'], ['b']] =
      .error ⟨circularMsg "#/x".toList, none⟩)
    ∧ (parseCircular true [.hobj [("$ref".toList, .vstr "#/a".toList)]] 0
      [.vref 0, .vref 1] [['a'], ['b']] = .ok (.vref 1)) := by
  constructor
  · exact (c4_resolver [.hobj [("$ref".toList, .vstr "#/x".toList)]] 0
      [.vref 0, .vref 1] [['a'], ['b']] (by decide)).1
      ⟨0, by decide, by decide⟩
  · obtain ⟨v, hv, hr⟩ := (c4_resolver [.hobj [("$ref".toList, .vstr "#/a".toList)]] 0
      [.vref 0, .vref 1] [['a'], ['b']] (by decide)).2
      (by decide) (by decide)
    have hveq : v = .vref 1 := by
      have hsome : some v = some (JsVal.vref 1) := by rw [← hv]; decide
      simpa using hsome
    rw [hveq] at hr
    exact hr

/-- C9: with the feature enabled, a marker whose parsed pointer path has
length exactly the current stack length and matches the whole `path` stack is
resolved to `stack[pointerPath.length]`, an out-of-range read producing
JavaScript `undefined` rather than an error; in the concrete run the marker
mapping is replaced by no value — the parent field holds `undefined`. -/
theorem c9_full_match_undefined :
    (∀ (heap : Heap) (addr : Nat) (stack : List JsVal) (path : List Chars),
      isCircular heap addr = true →
      (parsePointer (refString heap addr)).length = stack.length →
      (∀ i, i < (parsePointer (refString heap addr)).length →
        path.get? i = (parsePointer (refString heap addr)).get? i) →
      parseCircular true heap addr stack path = .ok .vundef)
    ∧ parse msArb "\x7b\"a\":\x7b\"$ref\":\"#/a/$ref\"\x7d\x7d".toList true none =
        .ok (.vref 0) [.hobj [("a".toList, .vundef)],
          .hobj [("$ref".toList, .vstr "#/a/$ref".toList)]] := by
  constructor
  · intro heap addr stack path hmark hlen hall
    have hT : prefixMatches (parsePointer (refString heap addr)) path = true :=
      (prefixMatches_true_iff _ _).mpr hall
    have hnone : stack[(parsePointer (refString heap addr)).length]? = none :=
      List.getElem?_eq_none (by omega)
    simp [parseCircular, hT, List.getD_eq_getElem?_getD, hnone]
  · rfl

/-- Witness for C9 at a concrete two-level stack fully matched by the pointer
path. -/
theorem c9_full_match_undefined_witness :
    parseCircular true [.hobj [("$ref".toList, .vstr "#/a/b".toList)]] 0
      [.vref 0, .vref 1] [['a'], ['b']] = .ok .vundef :=
  c9_full_match_undefined.1 [.hobj [("$ref".toList, .vstr "#/a/b".toList)]] 0
    [.vref 0, .vref 1] [['a'], ['b']] (by decide) (by decide) (by decide)


/-- C2 counterexample: parsing the inner marker-shaped mapping of
`{"a":{"$ref":"#/x"}}` with the circular-reference feature disabled.  The
inner mapping was pushed at stack index 1; the claim says the entry is popped
before the marker value is returned, which would leave the stack at length 1
(`[vref 0]`).  The code instead returns through `parseCircular` without
touching the stack: the result state still holds both entries, so the
stack length (2) exceeds the nesting depth (1) after the mapping closed. -/
theorem c2_counterexample :
    parseObject false "\x7b\"a\":\x7b\"$ref\":\"#/x\"\x7d\x7d".toList 98
      ⟨['{'], .delimiter, 6⟩ [.vref 0] [['a']] [.hobj []] =
      .ok (.vref 1) ⟨['}'], .delimiter, 20⟩ [.vref 0, .vref 1]
        [['a'], "$ref".toList]
        [.hobj [], .hobj [("$ref".toList, .vstr "#/x".toList)]]
    ∧ ([JsVal.vref 0, JsVal.vref 1] ≠ [JsVal.vref 0]) := by
  exact ⟨rfl, by decide⟩

/-- C2 amended: when a just-closed keyed mapping matches the marker shape and
the feature is disabled, the marker value is returned with the stack and path
left exactly as they were — the entry pushed for that mapping is NOT popped.
Only a normal (non-marker) close truncates stack and path to the recorded
depth, which is what eventually discards the stale entry when an enclosing
container closes. -/
theorem c2_amended :
    (∀ (text : Chars) (addr stackIndex : Nat) (t t1 : Tok) (stack : List JsVal)
      (path : List Chars) (heap : Heap),
      isCircular heap addr = true →
      t.ty = .delimiter → t.token = ['}'] →
      getToken text t.i = .ok t1 →
      closeObject false text addr stackIndex t stack path heap =
        .ok (.vref addr) t1 stack path heap)
    ∧ (∀ (circ : Bool) (text : Chars) (addr stackIndex : Nat) (t t1 : Tok)
      (stack : List JsVal) (path : List Chars) (heap : Heap),
      isCircular heap addr = false →
      t.ty = .delimiter → t.token = ['}'] →
      getToken text t.i = .ok t1 →
      closeObject circ text addr stackIndex t stack path heap =
        .ok (.vref addr) t1 (stack.take stackIndex) (path.take stackIndex) heap) := by
  constructor
  · intro text addr stackIndex t t1 stack path heap hmark hty htok hg
    unfold closeObject
    rw [if_pos ⟨hty, htok⟩, hg]
    simp [hmark, parseCircular]
  · intro circ text addr stackIndex t t1 stack path heap hmark hty htok hg
    unfold closeObject
    rw [if_pos ⟨hty, htok⟩, hg]
    simp [hmark]

/-- Witness for C2 amended, exercising both close paths at a concrete state:
the marker-shaped close returns with the two-entry stack untouched, the
ordinary close pops down to the recorded index. -/
theorem c2_amended_witness :
    closeObject false "\x7b\x7d".toList 1 1 ⟨['}'], .delimiter, 1⟩
      [.vref 0, .vref 1] [['a'], ['b']]
      [.hobj [], .hobj [("$ref".toList, .vstr "#/x".toList)]] =
      .ok (.vref 1) ⟨['}'], .delimiter, 2⟩ [.vref 0, .vref 1] [['a'], ['b']]
        [.hobj [], .hobj [("$ref".toList, .vstr "#/x".toList)]]
    ∧ closeObject false "\x7b\x7d".toList 1 1 ⟨['}'], .delimiter, 1⟩
      [.vref 0, .vref 1] [['a'], ['b']] [.hobj [], .hobj [(['k'], .vnull)]] =
      .ok (.vref 1) ⟨['}'], .delimiter, 2⟩ [.vref 0] [['a']]
        [.hobj [], .hobj [(['k'], .vnull)]] := by
  constructor
  · exact c2_amended.1 "\x7b\x7d".toList 1 1 ⟨['}'], .delimiter, 1⟩
      ⟨['}'], .delimiter, 2⟩ [.vref 0, .vref 1] [['a'], ['b']]
      [.hobj [], .hobj [("$ref".toList, .vstr "#/x".toList)]]
      (by decide) rfl rfl rfl
  · exact c2_amended.2 false "\x7b\x7d".toList 1 1 ⟨['}'], .delimiter, 1⟩
      ⟨['}'], .delimiter, 2⟩ [.vref 0, .vref 1] [['a'], ['b']]
      [.hobj [], .hobj [(['k'], .vnull)]]
      (by decide) rfl rfl rfl

/-- C8: for every input text, configuration and reviver, a call to `parse`
terminates with a value or an error — the recursive descent and the scanner
loops cannot run forever.  In the fuel embedding this is exactly: the entry
point, whose fuel is fixed from the input length, never returns the
fuel-exhaustion marker. -/
theorem c8_termination (ms : ModuleState) (text : Chars) (circ : Bool)
    (rev : Option (JsVal × Heap → JsVal × Heap)) :
    parse ms text circ rev ≠ .spin := by
  unfold parse
  simp only [initState]
  cases h0 : getToken text 0 with
  | error e => simp
  | ok t0 =>
    dsimp only
    have hns := (noSpin circ text (parseFuel text)).1 t0 [] [] []
      (by unfold parseFuel; omega)
    cases hp : parseObject circ text (parseFuel text) t0 [] [] [] with
    | spin => exact absurd hp hns
    | fail e => simp
    | ok v t s p heap =>
      dsimp only
      split
      · split <;> simp
      · simp

/-- C10: parse is deterministic in the leftover module state: lines 71-79
re-initialize every module-level variable (`jsonText`, `index`, `c`, `token`,
`tokenType`, `stack`, `path`) from the arguments, so two calls with the same
text, configuration and reviver agree regardless of the state a previous call
left behind. -/
theorem c10_deterministic (ms1 ms2 : ModuleState) (text : Chars) (circ : Bool)
    (rev : Option (JsVal × Heap → JsVal × Heap)) :
    parse ms1 text circ rev = parse ms2 text circ rev := rfl


/-- C6 counterexample: for the input `1 "a"` — a complete well-formed value
followed by trailing non-whitespace content starting at offset 2 — the
trailing-input error is reported at offset 4, not 2: the default position is
`index - token.length` with the *decoded* string-token length (1), not the
consumed lexeme length (3).  The conjuncts pin down the run: the value token
`1` ends at offset 1, the character at offset 2 opens the trailing string,
and the reported offset 4 differs from 2. -/
theorem c6_counterexample :
    parse msArb "1 \"a\"".toList false none =
      .fail ⟨"Unexpected characters", some 4⟩
    ∧ getToken "1 \"a\"".toList 0 = .ok ⟨['1'], .number, 1⟩
    ∧ "1 \"a\"".toList.get? 2 = some '"'
    ∧ (4 ≠ 2) := by
  exact ⟨rfl, rfl, rfl, by decide⟩

/-- C6 amended: when the complete value is followed by a trailing token that
is a number, symbol or delimiter token (scanned by `getToken` from the
position `j` just after the value), the trailing-input error is reported at
the offset of the first unconsumed non-whitespace character — the start of
that token, `skipWS` applied at `j`.  For a trailing *string* token the
reported offset is `index - decodedLength`, which lies past the token start
(see the counterexample); trailing characters that form no valid token fail
inside the tokenizer with a different error. -/
theorem c6_amended (text : Chars) (circ : Bool) (ms : ModuleState)
    (rev : Option (JsVal × Heap → JsVal × Heap)) (t0 : Tok) (v : JsVal)
    (tf : Tok) (s : List JsVal) (p : List Chars) (heap : Heap) (j : Nat)
    (h0 : getToken text 0 = .ok t0)
    (hp : parseObject circ text (parseFuel text) t0 [] [] [] = .ok v tf s p heap)
    (hj : getToken text j = .ok tf)
    (hne : tf.token ≠ [])
    (hty : tf.ty ≠ .string) :
    parse ms text circ rev =
      .fail ⟨"Unexpected characters", some ((skipWS (text.drop j) j).2)⟩ := by
  have hpos := getToken_pos text j tf hj hne hty
  unfold parse
  simp only [initState]
  rw [h0]
  dsimp only
  rw [hp]
  dsimp only
  rw [if_neg hne]
  have hdp : defaultPos tf = (skipWS (text.drop j) j).2 := by
    unfold defaultPos; omega
  rw [hdp]

/-- Witness for C6 amended: `1 2` reports the trailing `2` at its own offset
2, the first unconsumed non-whitespace character. -/
theorem c6_amended_witness :
    parse msArb "1 2".toList false none =
      .fail ⟨"Unexpected characters", some 2⟩ :=
  c6_amended "1 2".toList false msArb none ⟨['1'], .number, 1⟩ (.vnum ['1'])
    ⟨['2'], .number, 3⟩ [] [] [] 1 rfl rfl rfl (by decide) (by decide)


/-- C7: inside string tokens each escape of the standard set decodes to its
character, `\uXXXX` with exactly four hex digits decodes to the character
with that code (first conjunct, for arbitrary hex digits; the token ends up
holding the decoded text, not the raw escape), `"\u0041"` tokenizes — and
parses — to the one-character string `A`, and a `\u` escape not followed by
four hex digits fails with the invalid-unicode error. -/
theorem c7_escapes :
    (∀ (c1 c2 c3 c4 : Char) (rest : Chars) (i : Nat) (acc : Chars),
      isHex c1 = true → isHex c2 = true → isHex c3 = true → isHex c4 = true →
      scanEscape ('u' :: c1 :: c2 :: c3 :: c4 :: rest) i acc =
        scanString rest (i + 5)
          (acc ++ [Char.ofNat (((hexVal c1 * 16 + hexVal c2) * 16 + hexVal c3) * 16
            + hexVal c4)]))
    ∧ getToken "\"\\\"\"".toList 0 = .ok ⟨['"'], .string, 4⟩
    ∧ getToken "\"\\\\\"".toList 0 = .ok ⟨['\\'], .string, 4⟩
    ∧ getToken "\"\\/\"".toList 0 = .ok ⟨['/'], .string, 4⟩
    ∧ getToken "\"\\b\"".toList 0 = .ok ⟨[Char.ofNat 8], .string, 4⟩
    ∧ getToken "\"\\f\"".toList 0 = .ok ⟨[Char.ofNat 12], .string, 4⟩
    ∧ getToken "\"\\n\"".toList 0 = .ok ⟨['\n'], .string, 4⟩
    ∧ getToken "\"\\r\"".toList 0 = .ok ⟨['\r'], .string, 4⟩
    ∧ getToken "\"\\t\"".toList 0 = .ok ⟨['\t'], .string, 4⟩
    ∧ getToken "\"\\u0041\"".toList 0 = .ok ⟨['A'], .string, 8⟩
    ∧ parse msArb "\"\\u0041\"".toList false none = .ok (.vstr ['A']) []
    ∧ getToken "\"\\uZZZZ\"".toList 0 =
        .error ⟨"Invalid unicode character", some 3⟩ := by
  refine ⟨?_, rfl, rfl, rfl, rfl, rfl, rfl, rfl, rfl, rfl, rfl, rfl⟩
  intro c1 c2 c3 c4 rest i acc h1 h2 h3 h4
  simp [scanEscape, scanHex, escapeChar, h1, h2, h3, h4]

/-- Witness for C7 at the concrete hex digits of `\u0041`. -/
theorem c7_escapes_witness :
    scanEscape ('u' :: '0' :: '0' :: '4' :: '1' :: []) 0 [] =
      scanString [] 5 ([] ++ [Char.ofNat (((hexVal '0' * 16 + hexVal '0') * 16
        + hexVal '4') * 16 + hexVal '1')]) :=
  c7_escapes.1 '0' '0' '4' '1' [] 0 [] (by decide) (by decide) (by decide)
    (by decide)

/-- C1 evaluation at the failing input (code bug): the tokenizer validates
and preserves the sixteen-digit literal text exactly — the core's obligation
per the claim — but `parseNumber` line 439 then computes `token/1`, the
binary64 coercion of that text, modelled by `jsToNumberInt`: it maps the
literal 9007199254740993 and the distinct literal 9007199254740992 to the
same value, so the parse result loses the literal (no lossless handoff). -/
theorem c1_number_literal_eval :
    getToken "9007199254740993".toList 0 =
      .ok ⟨"9007199254740993".toList, .number, 16⟩
    ∧ parse msArb "9007199254740993".toList false none =
        .ok (.vnum "9007199254740993".toList) []
    ∧ jsToNumberInt 9007199254740993 = 9007199254740992
    ∧ jsToNumberInt 9007199254740992 = 9007199254740992
    ∧ (9007199254740993 ≠ 9007199254740992) := by
  refine ⟨rfl, rfl, by decide, by decide, by decide⟩

/-- C3 evaluation (code bug at the leading-zero rule): `-`, `1.` and `1e`
each fail with the digit-expected error at the position immediately after the
malformed fragment, as the claim states — but `01` does not fail at all: the
`'0'` branch of `getToken` falls through to the shared digit loop, the token
`01` is produced, and the whole parse succeeds. -/
theorem c3_leading_zero_eval :
    getToken "01".toList 0 = .ok ⟨['0', '1'], .number, 2⟩
    ∧ parse msArb "01".toList false none = .ok (.vnum ['0', '1']) []
    ∧ getToken "-".toList 0 = .error ⟨"Invalid number, digit expected", some 1⟩
    ∧ getToken "1.".toList 0 = .error ⟨"Invalid number, digit expected", some 2⟩
    ∧ getToken "1e".toList 0 = .error ⟨"Invalid number, digit expected", some 2⟩
    ∧ parse msArb "-".toList false none =
        .fail ⟨"Invalid number, digit expected", some 1⟩ := by
  exact ⟨rfl, rfl, rfl, rfl, rfl, rfl⟩

end JsonLib
